import Mathlib

set_option maxHeartbeats 1000000

/-- One timed transcript event, embedding the Rust struct `Timing` of
`src/transcribe.rs`: `start` and `end` are `u32` milliseconds and `text` is
the sequence of Unicode scalar values of the `String` field (Rust
`str::chars`).  The `end` field is spelled `end_` because `end` is a Lean
keyword.  `u32` subtraction is embedded with a checked operation
(`checkedSub`): an underflow, which panics in a debug Rust build, is `none`. -/
structure Timing where
  start : Nat
  end_ : Nat
  text : List Char
deriving DecidableEq, Repr

/-- Checked `u32` subtraction: `none` models the underflow panic of
`a - b` in a debug Rust build when `b > a`. -/
def checkedSub (a b : Nat) : Option Nat :=
  if b ≤ a then some (a - b) else none

/-- Checked `u32` addition: `none` models the overflow panic of `a + b`
in a debug Rust build when the sum reaches `2 ^ 32`. -/
def checkedAdd (a b : Nat) : Option Nat :=
  if a + b < 2 ^ 32 then some (a + b) else none

/-- `Timing::combine`: `{ start: self.start, end: other.end,
text: self.text ++ other.text }`. -/
def Timing.combine (a b : Timing) : Timing :=
  ⟨a.start, b.end_, a.text ++ b.text⟩

/-- `Timing::absorb`: like `combine` but the timing of `self` is kept
unchanged. -/
def Timing.absorb (a b : Timing) : Timing :=
  ⟨a.start, a.end_, a.text ++ b.text⟩

/-- The Unicode `White_Space` property, the set decided by Rust's
`char::is_whitespace`. -/
def rustIsWhitespace (c : Char) : Bool :=
  let n := c.toNat
  n == 0x09 || n == 0x0A || n == 0x0B || n == 0x0C || n == 0x0D ||
  n == 0x20 || n == 0x85 || n == 0xA0 || n == 0x1680 ||
  (0x2000 ≤ n && n ≤ 0x200A) ||
  n == 0x2028 || n == 0x2029 || n == 0x202F || n == 0x205F || n == 0x3000

/-- `Timing::is_continuation`:
`!self.text.chars().next().is_some_and(char::is_whitespace)`. -/
def Timing.is_continuation (t : Timing) : Bool :=
  ! (match t.text with
     | [] => false
     | c :: _ => rustIsWhitespace c)

/-- `is_sentence` (`src/transcribe.rs`): the enumerated last character of
the string exists at an index `i > 0` and is one of `.`, `!`, `?`. -/
def is_sentence (s : List Char) : Bool :=
  match s.getLast? with
  | none => false
  | some c => decide (1 < s.length) && (c == '.' || c == '!' || c == '?')

/-- Token counter of Rust's `str::split_whitespace().count()`: the number
of maximal runs of non-whitespace characters.  The boolean state records
whether the previous character was inside a token. -/
def wordCountAux : Bool → List Char → Nat
  | _, [] => 0
  | inTok, c :: cs =>
    if rustIsWhitespace c then wordCountAux false cs
    else (if inTok then 0 else 1) + wordCountAux true cs

/-- `text.split_whitespace().count()`. -/
def wordCount (s : List Char) : Nat := wordCountAux false s

/-- State machine of the `batching` + `take_while_inclusive(p').collect()`
loops of `Iter::sentences` and `Iter::min_word_count`, with `p` the
*stop* predicate (the negation of the `take_while_inclusive` predicate):
each batch collects events while `p` is false and closes after absorbing
the first event on which `p` is true (or at end of input); the collected
batch is left-folded with `Timing::combine` (the
`FromIterator<Timing> for Option<Timing>` instance).  `acc = none` means
no event of the current batch has been read yet. -/
def batchesGo (p : Timing → Bool) (acc : Option Timing) : List Timing → List Timing
  | [] =>
    match acc with
    | none => []
    | some a => [a]
  | t :: ts =>
    let a :=
      match acc with
      | none => t
      | some a => a.combine t
    if p t then a :: batchesGo p none ts
    else batchesGo p (some a) ts

/-- `Iter::sentences`. -/
def sentences (xs : List Timing) : List Timing :=
  batchesGo (fun t => is_sentence t.text) none xs

/-- `Iter::min_word_count(min_words)`. -/
def min_word_count (min_words : Nat) (xs : List Timing) : List Timing :=
  batchesGo (fun t => ! decide (wordCount t.text < min_words)) none xs

/-- Loop of `Iter::chunks`: `m` is the number of further events the current
batch may still take (the batch has already taken `k - m` of its `k`). -/
def chunksGo (k : Nat) (acc : Timing) (m : Nat) : List Timing → List Timing
  | [] => [acc]
  | t :: ts =>
    match m with
    | 0 => acc :: chunksGo k t (k - 1) ts
    | m + 1 => chunksGo k (acc.combine t) m ts

/-- `Iter::chunks(chunk_count)`: `batching(|it| it.take(chunk_count).collect())`.
With `chunk_count = 0` the first `collect` is `None`, so the stream ends
with no output. -/
def chunks (chunk_count : Nat) (xs : List Timing) : List Timing :=
  match chunk_count, xs with
  | 0, _ => []
  | _, [] => []
  | k + 1, t :: ts => chunksGo (k + 1) t k ts

/-- Loop of `Iter::by_gap(gap_size)`: the run continues while the peeked
event satisfies `next.start - acc.end < gap_size`; the `u32` subtraction is
checked, so an overlapping `next` (`next.start < acc.end`) yields `none`
(a debug-build panic). -/
def byGapGo (gap_size : Nat) (acc : Timing) : List Timing → Option (List Timing)
  | [] => some [acc]
  | next :: ts =>
    match checkedSub next.start acc.end_ with
    | none => none
    | some gap =>
      if gap < gap_size then byGapGo gap_size (acc.combine next) ts
      else (byGapGo gap_size next ts).map (acc :: ·)

/-- `Iter::by_gap(gap_size)` over a finite input. -/
def byGap (gap_size : Nat) : List Timing → Option (List Timing)
  | [] => some []
  | t :: ts => byGapGo gap_size t ts

/-- Loop of `Iter::max_silence(max_silence)`: `silence` is the
`total_silence` accumulator (sum of the gaps already merged into `acc`,
reset to `0` for each run).  The peeked predicate is
`total_silence + next.start - acc.end < max_silence`, whose `u32`
addition and `u32` subtraction are both checked.  On a merge,
`total_silence += next.start - acc.end`: its subtraction is checked, and
its addition is written plain because it is bounded by the just-checked
predicate sum (`silence + (next.start - acc.end) ≤ silence + next.start
< 2 ^ 32`), so that addition cannot overflow when it is reached. -/
def maxSilenceGo (max_silence : Nat) (acc : Timing) (silence : Nat) :
    List Timing → Option (List Timing)
  | [] => some [acc]
  | next :: ts =>
    match checkedAdd silence next.start with
    | none => none
    | some sum =>
      match checkedSub sum acc.end_ with
      | none => none
      | some g =>
        if g < max_silence then
          match checkedSub next.start acc.end_ with
          | none => none
          | some gap => maxSilenceGo max_silence (acc.combine next) (silence + gap) ts
        else (maxSilenceGo max_silence next 0 ts).map (acc :: ·)

/-- `Iter::max_silence(max_silence)` over a finite input. -/
def maxSilence (max_silence : Nat) : List Timing → Option (List Timing)
  | [] => some []
  | t :: ts => maxSilenceGo max_silence t 0 ts

/-- Loop of `Iter::lasting(window_size)`: the accumulator grows while
`acc.duration() < window_size`; `duration` is the checked `u32`
subtraction `end - start`, evaluated before each exit test. -/
def lastingGo (window_size : Nat) (acc : Timing) : List Timing → Option (List Timing)
  | [] =>
    match checkedSub acc.end_ acc.start with
    | none => none
    | some _ => some [acc]
  | t :: ts =>
    match checkedSub acc.end_ acc.start with
    | none => none
    | some dur =>
      if dur < window_size then lastingGo window_size (acc.combine t) ts
      else (lastingGo window_size t ts).map (acc :: ·)

/-- `Iter::lasting(window_size)` over a finite input. -/
def lasting (window_size : Nat) : List Timing → Option (List Timing)
  | [] => some []
  | t :: ts => lastingGo window_size t ts

/-- `MAX_DURATION` (`src/transcribe.rs`): 500 milliseconds. -/
def MAX_DURATION : Nat := 500

/-- The duration clamp mapped over `join_continuations` output:
`if t.duration() > MAX_DURATION { t.end = t.start + MAX_DURATION }`. -/
def clamp (t : Timing) : Option Timing :=
  match checkedSub t.end_ t.start with
  | none => none
  | some dur =>
    if dur > MAX_DURATION then some ⟨t.start, t.start + MAX_DURATION, t.text⟩
    else some t

/-- `clamp` applied to every event of a list. -/
def clampAll : List Timing → Option (List Timing)
  | [] => some []
  | t :: ts =>
    match clamp t, clampAll ts with
    | some t', some ts' => some (t' :: ts')
    | _, _ => none

/-- Batching loop of `IteratorExt::join_continuations`: absorb peeked
continuation events into the seed, emit when the peeked event is not a
continuation, reseed with it. -/
def joinGo (acc : Timing) : List Timing → List Timing
  | [] => [acc]
  | t :: ts =>
    if t.is_continuation then joinGo (acc.absorb t) ts
    else acc :: joinGo t ts

/-- `IteratorExt::join_continuations` over a finite input: the batching
loop followed by the duration clamp on every emitted event. -/
def join_continuations (xs : List Timing) : Option (List Timing) :=
  match xs with
  | [] => some []
  | t :: ts => clampAll (joinGo t ts)

/-- Left fold of a run `seed :: tail` with `Timing::combine`, as performed
by `FromIterator<Timing> for Option<Timing>`. -/
def runFold (t : Timing) (ts : List Timing) : Timing :=
  ts.foldl Timing.combine t

/-- Left fold of a run `seed :: tail` with `Timing::absorb`. -/
def runAbsorb (t : Timing) (ts : List Timing) : Timing :=
  ts.foldl Timing.absorb t

/-- A run is a nonempty contiguous block of input events, represented as
`(seed, tail)`.  `runsJoin` flattens a list of runs back to the input. -/
def runsJoin (rs : List (Timing × List Timing)) : List Timing :=
  (rs.map fun r => r.1 :: r.2).flatten

/-- The output events of a list of runs: each run folded with `combine`. -/
def runsFold (rs : List (Timing × List Timing)) : List Timing :=
  rs.map fun r => runFold r.1 r.2

/-- The concatenation of the `text` fields of a list of events. -/
def textConcat (xs : List Timing) : List Char :=
  (xs.map Timing.text).flatten

/-- The last event of a run with seed `a` and tail `ts`. -/
def lastOf (a : Timing) : List Timing → Timing
  | [] => a
  | t :: ts => lastOf t ts

/-- The truncated inter-event gaps `next.start - prev.end` along a run. -/
def gaps (prev : Timing) : List Timing → List Nat
  | [] => []
  | t :: ts => (t.start - prev.end_) :: gaps t ts

/-- The total silence merged into a run: the sum of its inter-event gaps. -/
def silenceSum (r : Timing × List Timing) : Nat :=
  (gaps r.1 r.2).sum

/-- The following events of each adjacent pair of a run start no earlier
than the previous one ends. -/
def runSorted (r : Timing × List Timing) : Prop :=
  List.Chain' (fun a b => a.end_ ≤ b.start) (r.1 :: r.2)

/-- Adjacent events of the whole input never overlap:
`next.start ≥ prev.end` throughout. -/
def NoOverlap (xs : List Timing) : Prop :=
  List.Chain' (fun a b => a.end_ ≤ b.start) xs

/-- Run conditions of `max_silence(D)`: inside every run the accumulated
silence stayed below `D` at each merge (equivalently, since prefix sums of
gaps are monotone, the run's total silence is below `D` unless the run is
a singleton), and at each run boundary merging the next seed would have
accumulated silence at least `D`. -/
def SilenceRuns (D : Nat) : List (Timing × List Timing) → Prop
  | [] => True
  | [r] => r.2 = [] ∨ silenceSum r < D
  | r :: r' :: rs =>
    (r.2 = [] ∨ silenceSum r < D) ∧
    D + (lastOf r.1 r.2).end_ ≤ silenceSum r + r'.1.start ∧
    SilenceRuns D (r' :: rs)

/-- Run conditions of a `take_while_inclusive` batch operator with stop
predicate `p`: in every run all events before the last fail `p`, and
every run except possibly the final one is closed by an event satisfying
`p`. -/
def StopRuns (p : Timing → Bool) : List (Timing × List Timing) → Prop
  | [] => True
  | [r] => ∀ u ∈ (r.1 :: r.2).dropLast, p u = false
  | r :: r' :: rs =>
    (∀ u ∈ (r.1 :: r.2).dropLast, p u = false) ∧
    p (lastOf r.1 r.2) = true ∧
    StopRuns p (r' :: rs)

/-- Specification-side model of the `sentences` predicate as claim C6
words it: the run continues while the *accumulated* text is not yet a
sentence, and ends as soon as it is. -/
def sentencesAccGo (acc : Timing) : List Timing → List Timing
  | [] => [acc]
  | t :: ts =>
    if is_sentence acc.text then acc :: sentencesAccGo t ts
    else sentencesAccGo (acc.combine t) ts

/-- Specification-side model of `sentences` judging the accumulated text. -/
def sentencesAcc : List Timing → List Timing
  | [] => []
  | t :: ts => sentencesAccGo t ts

/-- Specification-side model of the `min_word_count` predicate as claim C7
words it: the run continues while the *accumulated* text has fewer than
`n` tokens, and ends as soon as it reaches `n`. -/
def minWordCountAccGo (n : Nat) (acc : Timing) : List Timing → List Timing
  | [] => [acc]
  | t :: ts =>
    if n ≤ wordCount acc.text then acc :: minWordCountAccGo n t ts
    else minWordCountAccGo n (acc.combine t) ts

/-- Specification-side model of `min_word_count` judging the accumulated
text. -/
def minWordCountAcc (n : Nat) : List Timing → List Timing
  | [] => []
  | t :: ts => minWordCountAccGo n t ts

/-- Combine-fold of a possibly empty run, the
`FromIterator<Timing> for Option<Timing>` instance itself. -/
def combineAll : List Timing → Option Timing
  | [] => none
  | t :: ts => some (runFold t ts)

/-- `ys` is obtained from `xs` by folding a partition of `xs` into
nonempty contiguous runs with `Timing::combine`; each output event starts
where its run's first input starts and ends where its run's last input
ends. -/
def EnvelopeOf (xs ys : List Timing) : Prop :=
  ∃ rs, runsJoin rs = xs ∧ ys = runsFold rs ∧
    ∀ r ∈ rs, (runFold r.1 r.2).start = r.1.start ∧
      (runFold r.1 r.2).end_ = (lastOf r.1 r.2).end_

/-- Scenario S1 input (`spec.md` §8). -/
def s1In : List Timing :=
  [⟨0, 200, " Hello".toList⟩, ⟨200, 900, "world".toList⟩, ⟨900, 1000, " again.".toList⟩]

/-- Scenario S5 input (`spec.md` §8), with empty texts. -/
def s5In : List Timing :=
  [⟨0, 100, []⟩, ⟨200, 300, []⟩, ⟨500, 600, []⟩, ⟨900, 1000, []⟩]

/-- Input separating the per-event sentence test of the code from the
accumulated-text sentence test of claim C6. -/
def c6In : List Timing :=
  [⟨0, 100, "abc".toList⟩, ⟨100, 200, ".".toList⟩, ⟨200, 300, "x.".toList⟩]

/-- Input separating the per-event word count of the code from the
accumulated-text word count of claim C7. -/
def c7In : List Timing :=
  [⟨0, 100, " a".toList⟩, ⟨100, 200, " b".toList⟩, ⟨200, 300, " c".toList⟩]

/-- Overlapping input (`next.start < acc.end`) for claim C8. -/
def c8In : List Timing :=
  [⟨100, 200, "a".toList⟩, ⟨50, 300, "b".toList⟩]

/-- A no-overlap input of `u32`-representable events on which the `u32`
addition `total_silence + next.start` of the `max_silence` predicate
overflows (`1 + (2 ^ 32 - 1) ≥ 2 ^ 32`, a debug-build panic). -/
def c8AddIn : List Timing :=
  [⟨0, 4294967286, []⟩, ⟨4294967287, 4294967287, []⟩, ⟨4294967295, 4294967295, []⟩]

/-- Input whose second event has empty text, for claim C9. -/
def c9In : List Timing :=
  [⟨0, 100, " a".toList⟩, ⟨100, 200, []⟩]

/-- A small well-formed input used by witnesses: two events with a 50 ms
gap. -/
def w1In : List Timing :=
  [⟨0, 100, "a".toList⟩, ⟨150, 260, "b".toList⟩]

/-- Witness input for the normalizer: a long seed followed by one
continuation fragment. -/
def w3In : List Timing :=
  [⟨0, 700, " Hi".toList⟩, ⟨700, 800, "!".toList⟩]

/-- Witness input of length 7 for `chunks` (scenario S3). -/
def w10In : List Timing :=
  [⟨0, 50, []⟩, ⟨100, 150, []⟩, ⟨200, 250, []⟩, ⟨300, 350, []⟩,
   ⟨400, 450, []⟩, ⟨500, 550, []⟩, ⟨600, 650, []⟩]

/-- `textConcat` distributes over `cons`. -/
theorem textConcat_cons (t : Timing) (ts : List Timing) :
    textConcat (t :: ts) = t.text ++ textConcat ts := rfl

/-- `textConcat` distributes over `append`. -/
theorem textConcat_append (xs ys : List Timing) :
    textConcat (xs ++ ys) = textConcat xs ++ textConcat ys := by
  simp [textConcat]

/-- Unfolding `runFold` over a `cons`. -/
theorem runFold_cons (acc t : Timing) (ts : List Timing) :
    runFold acc (t :: ts) = runFold (acc.combine t) ts := rfl

/-- A `combine` fold keeps the start of its seed. -/
theorem runFold_start (ts : List Timing) : ∀ acc : Timing,
    (runFold acc ts).start = acc.start := by
  induction ts with
  | nil => intro acc; rfl
  | cons t ts ih => intro acc; rw [runFold_cons, ih]; rfl

/-- A `combine` fold ends where the last event of the run ends. -/
theorem runFold_end (ts : List Timing) : ∀ acc : Timing,
    (runFold acc ts).end_ = (lastOf acc ts).end_ := by
  induction ts with
  | nil => intro acc; rfl
  | cons t ts ih =>
    intro acc
    rw [runFold_cons, ih]
    cases ts with
    | nil => rfl
    | cons u us => rfl

/-- A `combine` fold concatenates the texts of the run, in order. -/
theorem runFold_text (ts : List Timing) : ∀ acc : Timing,
    (runFold acc ts).text = acc.text ++ textConcat ts := by
  induction ts with
  | nil => intro acc; simp [runFold, textConcat]
  | cons t ts ih =>
    intro acc
    rw [runFold_cons, ih]
    simp [Timing.combine, textConcat_cons]

/-- An `absorb` fold keeps the seed's timing and concatenates the texts. -/
theorem runAbsorb_eq (ts : List Timing) : ∀ acc : Timing,
    runAbsorb acc ts = ⟨acc.start, acc.end_, acc.text ++ textConcat ts⟩ := by
  induction ts with
  | nil => intro acc; simp [runAbsorb, textConcat]
  | cons t ts ih =>
    intro acc
    rw [show runAbsorb acc (t :: ts) = runAbsorb (acc.absorb t) ts from rfl, ih]
    simp [Timing.absorb, textConcat_cons]

/-- Unfolding `runsJoin` over a `cons`. -/
theorem runsJoin_cons (r : Timing × List Timing) (rs : List (Timing × List Timing)) :
    runsJoin (r :: rs) = (r.1 :: r.2) ++ runsJoin rs := rfl

/-- Unfolding `runsFold` over a `cons`. -/
theorem runsFold_cons (r : Timing × List Timing) (rs : List (Timing × List Timing)) :
    runsFold (r :: rs) = runFold r.1 r.2 :: runsFold rs := rfl

/-- Folding each run preserves the concatenated text of the whole input. -/
theorem textConcat_runsFold (rs : List (Timing × List Timing)) :
    textConcat (runsFold rs) = textConcat (runsJoin rs) := by
  induction rs with
  | nil => rfl
  | cons r rs ih =>
    rw [runsFold_cons, textConcat_cons, runFold_text, runsJoin_cons,
      textConcat_append, textConcat_cons, ih]

/-- Coverage follows from any run decomposition. -/
theorem coverage_of_runs (xs ys : List Timing) (rs : List (Timing × List Timing))
    (h1 : runsJoin rs = xs) (h2 : ys = runsFold rs) :
    textConcat ys = textConcat xs := by
  rw [h2, textConcat_runsFold, h1]

/-- The time envelope follows from any run decomposition. -/
theorem envelopeOf_of_runs (xs ys : List Timing) (rs : List (Timing × List Timing))
    (h1 : runsJoin rs = xs) (h2 : ys = runsFold rs) : EnvelopeOf xs ys :=
  ⟨rs, h1, h2, fun r _ => ⟨runFold_start r.2 r.1, runFold_end r.2 r.1⟩⟩

/-- Introduction rule for `StopRuns`. -/
theorem StopRuns_cons (p : Timing → Bool) (r : Timing × List Timing)
    (rs : List (Timing × List Timing))
    (h1 : ∀ u ∈ (r.1 :: r.2).dropLast, p u = false)
    (h2 : rs ≠ [] → p (lastOf r.1 r.2) = true)
    (h3 : StopRuns p rs) : StopRuns p (r :: rs) := by
  cases rs with
  | nil => exact h1
  | cons r' rs' => exact ⟨h1, h2 (List.cons_ne_nil r' rs'), h3⟩

/-- Elements of the `dropLast` of a `cons`. -/
theorem mem_dropLast_cons (p : Timing → Bool) (t : Timing) (tl : List Timing)
    (hp : p t = false) (htl : ∀ u ∈ tl.dropLast, p u = false) :
    ∀ u ∈ (t :: tl).dropLast, p u = false := by
  intro u hu
  cases tl with
  | nil => simp at hu
  | cons v vs =>
    rw [List.dropLast_cons₂] at hu
    rcases List.mem_cons.mp hu with h | h
    · rw [h]; exact hp
    · exact htl u h

/-- Full characterization of the `take_while_inclusive` batching loop, in
both the fresh-batch state (`none`) and the open-batch state (`some a`):
the output is the `combine` fold of a partition into runs, every event of
a run before the last fails the stop predicate, and every run except the
final one is closed by an event satisfying it. -/
theorem batchesGo_spec (p : Timing → Bool) :
    ∀ ts : List Timing,
      (∃ rs, runsJoin rs = ts ∧ batchesGo p none ts = runsFold rs ∧ StopRuns p rs) ∧
      (∀ a : Timing, ∃ tl rs,
        tl ++ runsJoin rs = ts ∧
        batchesGo p (some a) ts = runFold a tl :: runsFold rs ∧
        (∀ u ∈ tl.dropLast, p u = false) ∧
        (rs ≠ [] → tl ≠ [] ∧ ∀ b : Timing, p (lastOf b tl) = true) ∧
        StopRuns p rs) := by
  intro ts
  induction ts with
  | nil =>
    constructor
    · exact ⟨[], rfl, rfl, trivial⟩
    · intro a
      exact ⟨[], [], rfl, rfl, by simp, by simp, trivial⟩
  | cons t ts ih =>
    constructor
    · by_cases hp : p t
      · obtain ⟨rs, hjoin, heq, hstop⟩ := ih.1
        refine ⟨(t, []) :: rs, ?_, ?_, ?_⟩
        · rw [runsJoin_cons, hjoin]; rfl
        · rw [runsFold_cons]
          show (if p t then t :: batchesGo p none ts else batchesGo p (some t) ts) = _
          rw [if_pos hp, heq]
          rfl
        · exact StopRuns_cons p (t, []) rs (by simp) (fun _ => hp) hstop
      · obtain ⟨tl, rs, hjoin, heq, hmid, hlast, hstop⟩ := ih.2 t
        refine ⟨(t, tl) :: rs, ?_, ?_, ?_⟩
        · rw [runsJoin_cons, List.cons_append, hjoin]
        · rw [runsFold_cons]
          show (if p t then t :: batchesGo p none ts else batchesGo p (some t) ts) = _
          rw [if_neg hp, heq]
        · refine StopRuns_cons p (t, tl) rs ?_ ?_ hstop
          · exact mem_dropLast_cons p t tl (Bool.eq_false_iff.mpr hp) hmid
          · intro hne
            obtain ⟨-, hall⟩ := hlast hne
            exact hall t
    · intro a
      by_cases hp : p t
      · obtain ⟨rs, hjoin, heq, hstop⟩ := ih.1
        refine ⟨[t], rs, ?_, ?_, ?_, ?_, hstop⟩
        · rw [List.cons_append, List.nil_append, hjoin]
        · show (if p t then a.combine t :: batchesGo p none ts
                else batchesGo p (some (a.combine t)) ts) = _
          rw [if_pos hp, heq]
          rfl
        · simp
        · intro _
          exact ⟨List.cons_ne_nil t [], fun b => hp⟩
      · obtain ⟨tl, rs, hjoin, heq, hmid, hlast, hstop⟩ := ih.2 (a.combine t)
        refine ⟨t :: tl, rs, ?_, ?_, ?_, ?_, hstop⟩
        · rw [List.cons_append, hjoin]
        · show (if p t then a.combine t :: batchesGo p none ts
                else batchesGo p (some (a.combine t)) ts) = _
          rw [if_neg hp, heq]
          rfl
        · exact mem_dropLast_cons p t tl (Bool.eq_false_iff.mpr hp) hmid
        · intro hne
          obtain ⟨htlne, hall⟩ := hlast hne
          refine ⟨List.cons_ne_nil t tl, fun b => ?_⟩
          show p (lastOf b (t :: tl)) = true
          cases tl with
          | nil => exact absurd rfl htlne
          | cons v vs => exact hall t

/-- The runs of `sentences`: each run is closed by the first event whose
own text is a sentence. -/
theorem sentences_runs (xs : List Timing) :
    ∃ rs, runsJoin rs = xs ∧ sentences xs = runsFold rs ∧
      StopRuns (fun t => is_sentence t.text) rs :=
  (batchesGo_spec _ xs).1

/-- The runs of `min_word_count n`: each run is closed by the first event
whose own text has at least `n` tokens. -/
theorem min_word_count_runs (n : Nat) (xs : List Timing) :
    ∃ rs, runsJoin rs = xs ∧ min_word_count n xs = runsFold rs ∧
      StopRuns (fun t => ! decide (wordCount t.text < n)) rs :=
  (batchesGo_spec _ xs).1

/-- Inverting a successful checked subtraction. -/
theorem checkedSub_some (a b c : Nat) (h : checkedSub a b = some c) :
    b ≤ a ∧ c = a - b := by
  by_cases hle : b ≤ a
  · simp only [checkedSub, if_pos hle, Option.some_inj] at h
    exact ⟨hle, h.symm⟩
  · simp only [checkedSub, if_neg hle] at h
    cases h

/-- A checked subtraction succeeds when it cannot underflow. -/
theorem checkedSub_of_le (a b : Nat) (hle : b ≤ a) :
    checkedSub a b = some (a - b) := by
  simp only [checkedSub, if_pos hle]

/-- Inverting a successful checked addition. -/
theorem checkedAdd_some (a b c : Nat) (h : checkedAdd a b = some c) :
    a + b < 2 ^ 32 ∧ c = a + b := by
  by_cases hlt : a + b < 2 ^ 32
  · simp only [checkedAdd, if_pos hlt, Option.some_inj] at h
    exact ⟨hlt, h.symm⟩
  · simp only [checkedAdd, if_neg hlt] at h
    cases h

/-- A checked addition succeeds when it cannot overflow. -/
theorem checkedAdd_of_lt (a b : Nat) (hlt : a + b < 2 ^ 32) :
    checkedAdd a b = some (a + b) := by
  simp only [checkedAdd, if_pos hlt]

/-- Partition produced by the `by_gap` loop on success. -/
theorem byGapGo_spec (D : Nat) :
    ∀ (ts : List Timing) (acc : Timing) (ys : List Timing),
      byGapGo D acc ts = some ys →
      ∃ tl rs, tl ++ runsJoin rs = ts ∧ ys = runFold acc tl :: runsFold rs := by
  intro ts
  induction ts with
  | nil =>
    intro acc ys h
    refine ⟨[], [], rfl, ?_⟩
    have hy : some [acc] = some ys := h
    rw [← Option.some_inj.mp hy]
    rfl
  | cons next ts ih =>
    intro acc ys h
    cases hsub : checkedSub next.start acc.end_ with
    | none =>
      simp only [byGapGo, hsub] at h
      cases h
    | some gap =>
      simp only [byGapGo, hsub] at h
      by_cases hlt : gap < D
      · rw [if_pos hlt] at h
        obtain ⟨tl, rs, hjoin, heq⟩ := ih (acc.combine next) ys h
        refine ⟨next :: tl, rs, ?_, ?_⟩
        · rw [List.cons_append, hjoin]
        · rw [runFold_cons, heq]
      · rw [if_neg hlt] at h
        cases hin : byGapGo D next ts with
        | none => rw [hin] at h; cases h
        | some ys' =>
          rw [hin] at h
          simp only [Option.map_some', Option.some_inj] at h
          obtain ⟨tl, rs, hjoin, heq⟩ := ih next ys' hin
          refine ⟨[], (next, tl) :: rs, ?_, ?_⟩
          · rw [List.nil_append, runsJoin_cons, List.cons_append, hjoin]
          · rw [← h, heq, runsFold_cons]
            rfl

/-- Partition produced by `by_gap` on success. -/
theorem byGap_runs (D : Nat) (xs ys : List Timing) (h : byGap D xs = some ys) :
    ∃ rs, runsJoin rs = xs ∧ ys = runsFold rs := by
  cases xs with
  | nil =>
    refine ⟨[], rfl, ?_⟩
    have hy : some ([] : List Timing) = some ys := h
    rw [← Option.some_inj.mp hy]
    rfl
  | cons t ts =>
    obtain ⟨tl, rs, hjoin, heq⟩ := byGapGo_spec D ts t ys h
    exact ⟨(t, tl) :: rs, by rw [runsJoin_cons, List.cons_append, hjoin], by
      rw [heq, runsFold_cons]⟩

/-- Partition produced by the `lasting` loop on success. -/
theorem lastingGo_spec (D : Nat) :
    ∀ (ts : List Timing) (acc : Timing) (ys : List Timing),
      lastingGo D acc ts = some ys →
      ∃ tl rs, tl ++ runsJoin rs = ts ∧ ys = runFold acc tl :: runsFold rs := by
  intro ts
  induction ts with
  | nil =>
    intro acc ys h
    cases hsub : checkedSub acc.end_ acc.start with
    | none =>
      simp only [lastingGo, hsub] at h
      cases h
    | some dur =>
      simp only [lastingGo, hsub, Option.some_inj] at h
      refine ⟨[], [], rfl, ?_⟩
      rw [← h]
      rfl
  | cons t ts ih =>
    intro acc ys h
    cases hsub : checkedSub acc.end_ acc.start with
    | none =>
      simp only [lastingGo, hsub] at h
      cases h
    | some dur =>
      simp only [lastingGo, hsub] at h
      by_cases hlt : dur < D
      · rw [if_pos hlt] at h
        obtain ⟨tl, rs, hjoin, heq⟩ := ih (acc.combine t) ys h
        refine ⟨t :: tl, rs, ?_, ?_⟩
        · rw [List.cons_append, hjoin]
        · rw [runFold_cons, heq]
      · rw [if_neg hlt] at h
        cases hin : lastingGo D t ts with
        | none => rw [hin] at h; cases h
        | some ys' =>
          rw [hin] at h
          simp only [Option.map_some', Option.some_inj] at h
          obtain ⟨tl, rs, hjoin, heq⟩ := ih t ys' hin
          refine ⟨[], (t, tl) :: rs, ?_, ?_⟩
          · rw [List.nil_append, runsJoin_cons, List.cons_append, hjoin]
          · rw [← h, heq, runsFold_cons]
            rfl

/-- Partition produced by `lasting` on success. -/
theorem lasting_runs (D : Nat) (xs ys : List Timing) (h : lasting D xs = some ys) :
    ∃ rs, runsJoin rs = xs ∧ ys = runsFold rs := by
  cases xs with
  | nil =>
    refine ⟨[], rfl, ?_⟩
    have hy : some ([] : List Timing) = some ys := h
    rw [← Option.some_inj.mp hy]
    rfl
  | cons t ts =>
    obtain ⟨tl, rs, hjoin, heq⟩ := lastingGo_spec D ts t ys h
    exact ⟨(t, tl) :: rs, by rw [runsJoin_cons, List.cons_append, hjoin], by
      rw [heq, runsFold_cons]⟩

/-- Unfolding `gaps` over a `cons`. -/
theorem gaps_cons (prev t : Timing) (ts : List Timing) :
    gaps prev (t :: ts) = (t.start - prev.end_) :: gaps t ts := rfl

/-- `gaps` reads only the end of its previous event, which `combine`
preserves. -/
theorem gaps_combine (acc t : Timing) (ts : List Timing) :
    gaps (acc.combine t) ts = gaps t ts := by
  cases ts <;> rfl

/-- A combined seed does not change the end of the last event of a run. -/
theorem lastOf_combine_end (acc t : Timing) (ts : List Timing) :
    (lastOf (acc.combine t) ts).end_ = (lastOf t ts).end_ := by
  cases ts <;> rfl

/-- Introduction rule for `SilenceRuns`. -/
theorem SilenceRuns_cons (D : Nat) (r : Timing × List Timing)
    (rs : List (Timing × List Timing))
    (h1 : r.2 = [] ∨ silenceSum r < D)
    (h2 : ∀ r' ∈ rs.head?, D + (lastOf r.1 r.2).end_ ≤ silenceSum r + r'.1.start)
    (h3 : SilenceRuns D rs) : SilenceRuns D (r :: rs) := by
  cases rs with
  | nil => exact h1
  | cons r' rs' => exact ⟨h1, h2 r' rfl, h3⟩

/-- Full characterization of the `max_silence` loop on success: the output
is the `combine` fold of a partition into runs; events within a run do not
overlap; with open-run silence offset `silence`, the accumulated silence
stayed below the bound at every merge, and every run boundary is forced by
the silence bound. -/
theorem maxSilenceGo_spec (D : Nat) :
    ∀ (ts : List Timing) (acc : Timing) (silence : Nat) (ys : List Timing),
      maxSilenceGo D acc silence ts = some ys →
      ∃ tl rs,
        tl ++ runsJoin rs = ts ∧
        ys = runFold acc tl :: runsFold rs ∧
        List.Chain' (fun a b => a.end_ ≤ b.start) (acc :: tl) ∧
        (tl = [] ∨ silence + (gaps acc tl).sum < D) ∧
        (∀ r' ∈ rs.head?,
          D + (lastOf acc tl).end_ ≤ silence + (gaps acc tl).sum + r'.1.start) ∧
        SilenceRuns D rs ∧
        (∀ r ∈ rs, runSorted r) := by
  intro ts
  induction ts with
  | nil =>
    intro acc silence ys h
    refine ⟨[], [], rfl, ?_, List.chain'_singleton acc, Or.inl rfl, ?_, trivial, by simp⟩
    · have hy : some [acc] = some ys := h
      rw [← Option.some_inj.mp hy]
      rfl
    · intro r' hr'
      simp at hr'
  | cons next ts ih =>
    intro acc silence ys h
    cases hadd : checkedAdd silence next.start with
    | none =>
      simp only [maxSilenceGo, hadd] at h
      cases h
    | some sum =>
      simp only [maxSilenceGo, hadd] at h
      obtain ⟨hlt32, hsum⟩ := checkedAdd_some _ _ _ hadd
      cases hsub1 : checkedSub sum acc.end_ with
      | none =>
        simp only [hsub1] at h
        cases h
      | some g =>
        simp only [hsub1] at h
        obtain ⟨hle1, hg⟩ := checkedSub_some _ _ _ hsub1
        by_cases hlt : g < D
        · rw [if_pos hlt] at h
          cases hsub2 : checkedSub next.start acc.end_ with
          | none =>
            simp only [hsub2] at h
            cases h
          | some gap =>
            simp only [hsub2] at h
            obtain ⟨hle2, hgap⟩ := checkedSub_some _ _ _ hsub2
            obtain ⟨tl, rs, hjoin, hys, hchain, hsil, hbnd, hsr, hsorted⟩ :=
              ih (acc.combine next) (silence + gap) ys h
            refine ⟨next :: tl, rs, ?_, ?_, ?_, ?_, ?_, hsr, hsorted⟩
            · rw [List.cons_append, hjoin]
            · rw [runFold_cons, hys]
            · rw [List.chain'_cons]
              refine ⟨hle2, ?_⟩
              rw [List.chain'_cons'] at hchain ⊢
              exact ⟨fun b hb => hchain.1 b hb, hchain.2⟩
            · right
              rw [gaps_cons]
              simp only [List.sum_cons]
              rcases hsil with htl | hlt2
              · subst htl
                simp only [gaps, List.sum_nil]
                omega
              · rw [gaps_combine] at hlt2
                omega
            · intro r' hr'
              have hb := hbnd r' hr'
              rw [gaps_combine, lastOf_combine_end] at hb
              show D + (lastOf next tl).end_ ≤
                silence + (gaps acc (next :: tl)).sum + r'.1.start
              rw [gaps_cons]
              simp only [List.sum_cons]
              omega
        · rw [if_neg hlt] at h
          cases hin : maxSilenceGo D next 0 ts with
          | none =>
            rw [hin] at h
            cases h
          | some ys' =>
            rw [hin] at h
            simp only [Option.map_some', Option.some_inj] at h
            obtain ⟨tl, rs, hjoin, hys', hchain, hsil, hbnd, hsr, hsorted⟩ := ih next 0 ys' hin
            refine ⟨[], (next, tl) :: rs, ?_, ?_, List.chain'_singleton acc, Or.inl rfl,
              ?_, ?_, ?_⟩
            · rw [List.nil_append, runsJoin_cons, List.cons_append, hjoin]
            · rw [← h, hys', runsFold_cons]
              rfl
            · intro r' hr'
              have hr : (next, tl) = r' := by simpa using hr'
              subst hr
              show D + (lastOf acc []).end_ ≤ silence + (gaps acc []).sum + next.start
              simp only [lastOf, gaps, List.sum_nil]
              omega
            · refine SilenceRuns_cons D (next, tl) rs ?_ ?_ hsr
              · rcases hsil with htl | hs
                · exact Or.inl htl
                · right
                  show silenceSum (next, tl) < D
                  simpa [silenceSum] using hs
              · intro r'' hr''
                have hb := hbnd r'' hr''
                show D + (lastOf (next, tl).1 (next, tl).2).end_ ≤
                  silenceSum (next, tl) + r''.1.start
                simpa [silenceSum] using hb
            · intro r hr
              rcases List.mem_cons.mp hr with hx | hx
              · rw [hx]
                exact hchain
              · exact hsorted r hx

/-- Partition and silence characterization of `max_silence` on success. -/
theorem maxSilence_runs (D : Nat) (xs ys : List Timing)
    (h : maxSilence D xs = some ys) :
    ∃ rs, runsJoin rs = xs ∧ ys = runsFold rs ∧ SilenceRuns D rs ∧
      ∀ r ∈ rs, runSorted r := by
  cases xs with
  | nil =>
    refine ⟨[], rfl, ?_, trivial, by simp⟩
    have hy : some ([] : List Timing) = some ys := h
    rw [← Option.some_inj.mp hy]
    rfl
  | cons t ts =>
    obtain ⟨tl, rs, hjoin, hys, hchain, hsil, hbnd, hsr, hsorted⟩ :=
      maxSilenceGo_spec D ts t 0 ys h
    refine ⟨(t, tl) :: rs, ?_, ?_, ?_, ?_⟩
    · rw [runsJoin_cons, List.cons_append, hjoin]
    · rw [hys, runsFold_cons]
    · refine SilenceRuns_cons D (t, tl) rs ?_ ?_ hsr
      · rcases hsil with htl | hs
        · exact Or.inl htl
        · right
          show silenceSum (t, tl) < D
          simpa [silenceSum] using hs
      · intro r' hr'
        have hb := hbnd r' hr'
        show D + (lastOf (t, tl).1 (t, tl).2).end_ ≤ silenceSum (t, tl) + r'.1.start
        simpa [silenceSum] using hb
    · intro r hr
      rcases List.mem_cons.mp hr with hx | hx
      · rw [hx]
        exact hchain
      · exact hsorted r hx

/-- Partition produced by the `join_continuations` batching loop: the
output is the `absorb` fold of a partition into runs whose tails are all
continuation events. -/
theorem joinGo_spec : ∀ (ts : List Timing) (acc : Timing),
    ∃ tl rs,
      tl ++ runsJoin rs = ts ∧
      joinGo acc ts = runAbsorb acc tl :: (rs.map fun r => runAbsorb r.1 r.2) ∧
      (∀ u ∈ tl, u.is_continuation = true) ∧
      (∀ r ∈ rs, ∀ u ∈ r.2, u.is_continuation = true) := by
  intro ts
  induction ts with
  | nil =>
    intro acc
    exact ⟨[], [], rfl, rfl, by simp, by simp⟩
  | cons t ts ih =>
    intro acc
    by_cases hc : t.is_continuation
    · obtain ⟨tl, rs, hjoin, heq, hcont, hrs⟩ := ih (acc.absorb t)
      refine ⟨t :: tl, rs, ?_, ?_, ?_, hrs⟩
      · rw [List.cons_append, hjoin]
      · show (if t.is_continuation then joinGo (acc.absorb t) ts
              else acc :: joinGo t ts) = _
        rw [if_pos hc, heq]
        rfl
      · intro u hu
        rcases List.mem_cons.mp hu with hx | hx
        · rw [hx]
          exact hc
        · exact hcont u hx
    · obtain ⟨tl, rs, hjoin, heq, hcont, hrs⟩ := ih t
      refine ⟨[], (t, tl) :: rs, ?_, ?_, by simp, ?_⟩
      · rw [List.nil_append, runsJoin_cons, List.cons_append, hjoin]
      · show (if t.is_continuation then joinGo (acc.absorb t) ts
              else acc :: joinGo t ts) = _
        rw [if_neg hc, heq]
        rfl
      · intro r hr
        rcases List.mem_cons.mp hr with hx | hx
        · rw [hx]
          exact hcont
        · exact hrs r hx

/-- What a successful `clamp` does: the start and text are unchanged and
the end becomes the minimum of the original end and `start + 500`. -/
theorem clamp_spec (t y : Timing) (h : clamp t = some y) :
    y.start = t.start ∧ y.end_ = min t.end_ (t.start + MAX_DURATION) ∧
    y.text = t.text := by
  cases hsub : checkedSub t.end_ t.start with
  | none =>
    simp only [clamp, hsub] at h
    cases h
  | some dur =>
    simp only [clamp, hsub] at h
    obtain ⟨hle, hdur⟩ := checkedSub_some _ _ _ hsub
    by_cases hgt : dur > MAX_DURATION
    · rw [if_pos hgt] at h
      rw [← Option.some_inj.mp h]
      refine ⟨rfl, ?_, rfl⟩
      show t.start + MAX_DURATION = min t.end_ (t.start + MAX_DURATION)
      have : t.start + MAX_DURATION ≤ t.end_ := by omega
      omega
    · rw [if_neg hgt] at h
      rw [← Option.some_inj.mp h]
      refine ⟨rfl, ?_, rfl⟩
      show t.end_ = min t.end_ (t.start + MAX_DURATION)
      have : t.end_ ≤ t.start + MAX_DURATION := by omega
      omega

/-- `clampAll` succeeds exactly when `clamp` succeeds pointwise. -/
theorem clampAll_spec : ∀ (zs ys : List Timing), clampAll zs = some ys →
    List.Forall₂ (fun z y => clamp z = some y) zs ys := by
  intro zs
  induction zs with
  | nil =>
    intro ys h
    have hy : some ([] : List Timing) = some ys := h
    rw [← Option.some_inj.mp hy]
    exact List.Forall₂.nil
  | cons z zs ih =>
    intro ys h
    cases hc : clamp z with
    | none =>
      simp only [clampAll, hc] at h
      cases h
    | some y =>
      cases hca : clampAll zs with
      | none =>
        simp only [clampAll, hc, hca] at h
        cases h
      | some ys' =>
        simp only [clampAll, hc, hca, Option.some_inj] at h
        rw [← h]
        exact List.Forall₂.cons hc (ih ys' hca)

/-- Unfolding lemma connecting `chunksGo` to `take`, `drop` and `chunks`. -/
theorem chunksGo_eq (k : Nat) : ∀ (ts : List Timing) (m : Nat) (acc : Timing),
    chunksGo (k + 1) acc m ts = runFold acc (ts.take m) :: chunks (k + 1) (ts.drop m) := by
  intro ts
  induction ts with
  | nil =>
    intro m acc
    cases m <;> rfl
  | cons t ts ih =>
    intro m acc
    cases m with
    | zero => rfl
    | succ m =>
      show chunksGo (k + 1) (acc.combine t) m ts = _
      rw [ih m (acc.combine t)]
      rfl

/-- Partition produced by `chunks (k + 1)`. -/
theorem chunks_runs (k : Nat) : ∀ (n : Nat) (xs : List Timing), xs.length ≤ n →
    ∃ rs, runsJoin rs = xs ∧ chunks (k + 1) xs = runsFold rs := by
  intro n
  induction n with
  | zero =>
    intro xs h
    rw [List.length_eq_zero.mp (Nat.le_zero.mp h)]
    exact ⟨[], rfl, rfl⟩
  | succ n ih =>
    intro xs h
    cases xs with
    | nil => exact ⟨[], rfl, rfl⟩
    | cons t ts =>
      obtain ⟨rs, hjoin, heq⟩ := ih (ts.drop k) (by
        rw [List.length_drop]
        have := List.length_cons t ts ▸ h
        omega)
      refine ⟨(t, ts.take k) :: rs, ?_, ?_⟩
      · rw [runsJoin_cons, hjoin, List.cons_append, List.take_append_drop]
      · show chunksGo (k + 1) t k ts = _
        rw [chunksGo_eq k ts k t, runsFold_cons, heq]

/-- Transporting a no-overlap chain across `combine` (which keeps the end
of its right operand). -/
theorem chain'_combine (acc next : Timing) (ts : List Timing)
    (h : List.Chain' (fun a b => a.end_ ≤ b.start) (next :: ts)) :
    List.Chain' (fun a b => a.end_ ≤ b.start) (acc.combine next :: ts) := by
  rw [List.chain'_cons'] at h ⊢
  exact ⟨fun b hb => h.1 b hb, h.2⟩

/-- On a no-overlap input the `by_gap` loop never hits an underflow. -/
theorem byGapGo_isSome (D : Nat) : ∀ (ts : List Timing) (acc : Timing),
    List.Chain' (fun a b => a.end_ ≤ b.start) (acc :: ts) →
    (byGapGo D acc ts).isSome := by
  intro ts
  induction ts with
  | nil =>
    intro acc _
    rfl
  | cons next ts ih =>
    intro acc hch
    rw [List.chain'_cons] at hch
    obtain ⟨hle, hch⟩ := hch
    have hsub : checkedSub next.start acc.end_ = some (next.start - acc.end_) :=
      checkedSub_of_le _ _ hle
    show (match checkedSub next.start acc.end_ with
          | none => none
          | some gap =>
            if gap < D then byGapGo D (acc.combine next) ts
            else (byGapGo D next ts).map (acc :: ·)).isSome
    rw [hsub]
    by_cases hlt : next.start - acc.end_ < D
    · simp only [if_pos hlt]
      exact ih (acc.combine next) (chain'_combine acc next ts hch)
    · simp only [if_neg hlt]
      obtain ⟨ys, hy⟩ := Option.isSome_iff_exists.mp (ih next hch)
      rw [hy]
      rfl

/-- On a no-overlap input of well-formed events (`start ≤ end`) whose
timestamps stay below `2 ^ 31`, the `max_silence` loop hits neither an
underflow nor an addition overflow: the running silence never exceeds the
accumulator's end, which bounds the checked predicate sum below `2 ^ 32`. -/
theorem maxSilenceGo_isSome (D : Nat) : ∀ (ts : List Timing) (acc : Timing) (silence : Nat),
    List.Chain' (fun a b => a.end_ ≤ b.start) (acc :: ts) →
    (∀ t ∈ ts, t.start ≤ t.end_ ∧ t.end_ < 2 ^ 31) →
    silence ≤ acc.end_ → acc.end_ < 2 ^ 31 →
    (maxSilenceGo D acc silence ts).isSome := by
  intro ts
  induction ts with
  | nil =>
    intro acc silence _ _ _ _
    rfl
  | cons next ts ih =>
    intro acc silence hch hwf hsil hbound
    rw [List.chain'_cons] at hch
    obtain ⟨hle, hch⟩ := hch
    have hnext : next.start ≤ next.end_ ∧ next.end_ < 2 ^ 31 :=
      hwf next (List.mem_cons_self next ts)
    have hwf' : ∀ t ∈ ts, t.start ≤ t.end_ ∧ t.end_ < 2 ^ 31 :=
      fun t ht => hwf t (List.mem_cons_of_mem next ht)
    have hadd : checkedAdd silence next.start = some (silence + next.start) :=
      checkedAdd_of_lt _ _ (by omega)
    have hsub1 : checkedSub (silence + next.start) acc.end_ =
        some (silence + next.start - acc.end_) :=
      checkedSub_of_le _ _ (by omega)
    have hsub2 : checkedSub next.start acc.end_ = some (next.start - acc.end_) :=
      checkedSub_of_le _ _ hle
    simp only [maxSilenceGo, hadd, hsub1, hsub2]
    by_cases hlt : silence + next.start - acc.end_ < D
    · simp only [if_pos hlt]
      refine ih (acc.combine next) (silence + (next.start - acc.end_))
        (chain'_combine acc next ts hch) hwf' ?_ ?_
      · show silence + (next.start - acc.end_) ≤ (acc.combine next).end_
        have he : (acc.combine next).end_ = next.end_ := rfl
        omega
      · show (acc.combine next).end_ < 2 ^ 31
        have he : (acc.combine next).end_ = next.end_ := rfl
        omega
    · simp only [if_neg hlt]
      obtain ⟨ys, hy⟩ := Option.isSome_iff_exists.mp
        (ih next 0 hch hwf' (Nat.zero_le _) hnext.2)
      rw [hy]
      rfl

/-- The full normalizer on success: partition into runs whose tails are
continuations, each output keeping the seed's start and text prefix, with
the clamped end. -/
theorem join_continuations_spec (xs ys : List Timing)
    (h : join_continuations xs = some ys) :
    ∃ rs, runsJoin rs = xs ∧
      List.Forall₂ (fun (r : Timing × List Timing) (y : Timing) =>
        y.start = r.1.start ∧ y.end_ = min r.1.end_ (r.1.start + MAX_DURATION) ∧
        y.text = r.1.text ++ textConcat r.2) rs ys ∧
      ∀ r ∈ rs, ∀ u ∈ r.2, u.is_continuation = true := by
  cases xs with
  | nil =>
    have hy : some ([] : List Timing) = some ys := h
    rw [← Option.some_inj.mp hy]
    exact ⟨[], rfl, List.Forall₂.nil, by simp⟩
  | cons t ts =>
    obtain ⟨tl, rs', hjoin, heq, hcont, hrs⟩ := joinGo_spec ts t
    have h' : clampAll (((t, tl) :: rs').map fun r => runAbsorb r.1 r.2) = some ys := by
      rw [show (((t, tl) :: rs').map fun r => runAbsorb r.1 r.2) =
          runAbsorb t tl :: (rs'.map fun r => runAbsorb r.1 r.2) from rfl, ← heq]
      exact h
    have hf := clampAll_spec _ ys h'
    rw [List.forall₂_map_left_iff] at hf
    refine ⟨(t, tl) :: rs', ?_, ?_, ?_⟩
    · rw [runsJoin_cons, List.cons_append, hjoin]
    · refine List.Forall₂.imp ?_ hf
      intro r y hc
      rw [runAbsorb_eq r.2 r.1] at hc
      obtain ⟨h1, h2, h3⟩ := clamp_spec _ y hc
      exact ⟨h1, h2, h3⟩
    · intro r hr
      rcases List.mem_cons.mp hr with hx | hx
      · rw [hx]
        exact hcont
      · exact hrs r hx

/-- Length of `chunks (k + 1)`: the ceiling of `length / (k + 1)`. -/
theorem chunks_length_aux (k : Nat) : ∀ (n : Nat) (xs : List Timing), xs.length ≤ n →
    (chunks (k + 1) xs).length = (xs.length + (k + 1) - 1) / (k + 1) := by
  intro n
  induction n with
  | zero =>
    intro xs h
    rw [List.length_eq_zero.mp (Nat.le_zero.mp h)]
    show (0 : Nat) = (0 + (k + 1) - 1) / (k + 1)
    rw [Nat.div_eq_of_lt (by omega)]
  | succ n ih =>
    intro xs h
    cases xs with
    | nil =>
      show (0 : Nat) = (0 + (k + 1) - 1) / (k + 1)
      rw [Nat.div_eq_of_lt (by omega)]
    | cons t ts =>
      show (chunksGo (k + 1) t k ts).length = _
      rw [chunksGo_eq k ts k t, List.length_cons,
        ih (ts.drop k) (by rw [List.length_drop]; rw [List.length_cons] at h; omega),
        List.length_drop, List.length_cons]
      have e1 : ts.length - k + (k + 1) - 1 = ts.length - k + k := by omega
      have e2 : ts.length + 1 + (k + 1) - 1 = ts.length + (k + 1) := by omega
      rw [e1, e2, Nat.add_div_right _ (Nat.succ_pos k)]
      rcases Nat.le_total k ts.length with hk | hk
      · rw [show ts.length - k + k = ts.length by omega]
      · rw [show ts.length - k + k = k by omega,
          Nat.div_eq_of_lt (by omega), Nat.div_eq_of_lt (by omega)]

/-- Indexing `chunks (k + 1)`: the `i`-th output is the fold of the
`i`-th block of `k + 1` consecutive inputs. -/
theorem chunks_get_aux (k : Nat) : ∀ (n : Nat) (xs : List Timing), xs.length ≤ n →
    ∀ i : Nat, (chunks (k + 1) xs)[i]? =
      combineAll ((xs.drop (i * (k + 1))).take (k + 1)) := by
  intro n
  induction n with
  | zero =>
    intro xs h i
    rw [List.length_eq_zero.mp (Nat.le_zero.mp h)]
    show (([] : List Timing))[i]? = combineAll ((List.drop (i * (k + 1)) []).take (k + 1))
    simp [combineAll]
  | succ n ih =>
    intro xs h i
    cases xs with
    | nil =>
      show (([] : List Timing))[i]? = combineAll ((List.drop (i * (k + 1)) []).take (k + 1))
      simp [combineAll]
    | cons t ts =>
      show (chunksGo (k + 1) t k ts)[i]? = _
      rw [chunksGo_eq k ts k t]
      cases i with
      | zero =>
        simp only [List.getElem?_cons_zero]
        rw [Nat.zero_mul, List.drop_zero]
        rfl
      | succ i =>
        simp only [List.getElem?_cons_succ]
        rw [ih (ts.drop k) (by rw [List.length_drop]; rw [List.length_cons] at h; omega) i,
          List.drop_drop]
        have e : (i + 1) * (k + 1) = (k + i * (k + 1)) + 1 := by ring
        rw [e, List.drop_succ_cons]

/-- Claim C1: Coverage — for every grouping operator among
`max_silence(D)`, `by_gap(D)`, `sentences`, `min_word_count(N)`,
`lasting(D)`, `chunks(K)` (with `N, K ≥ 1`): for `sentences`,
`min_word_count` and `chunks` on every input, and for each of
`max_silence`, `by_gap` and `lasting` on every input on which that
operator's own checked gap/duration arithmetic is defined (success of its
own checked computation, independent of the other operators),
concatenating the texts of the output equals concatenating the texts of
the input: no text lost, none duplicated, no separator inserted. -/
theorem claim_C1_coverage (D₁ D₂ D₃ N K : Nat) (_hN : 1 ≤ N) (hK : 1 ≤ K)
    (xs : List Timing) :
    (∀ ys, maxSilence D₁ xs = some ys → textConcat ys = textConcat xs) ∧
    (∀ ys, byGap D₂ xs = some ys → textConcat ys = textConcat xs) ∧
    (∀ ys, lasting D₃ xs = some ys → textConcat ys = textConcat xs) ∧
    textConcat (sentences xs) = textConcat xs ∧
    textConcat (min_word_count N xs) = textConcat xs ∧
    textConcat (chunks K xs) = textConcat xs := by
  obtain ⟨rs₄, hj₄, he₄, -⟩ := sentences_runs xs
  obtain ⟨rs₅, hj₅, he₅, -⟩ := min_word_count_runs N xs
  obtain ⟨k, rfl⟩ : ∃ k, K = k + 1 := ⟨K - 1, by omega⟩
  obtain ⟨rs₆, hj₆, he₆⟩ := chunks_runs k xs.length xs (le_refl _)
  refine ⟨?_, ?_, ?_, coverage_of_runs _ _ _ hj₄ he₄,
    coverage_of_runs _ _ _ hj₅ he₅, coverage_of_runs _ _ _ hj₆ he₆⟩
  · intro ys h₁
    obtain ⟨rs₁, hj₁, he₁, -, -⟩ := maxSilence_runs D₁ xs ys h₁
    exact coverage_of_runs _ _ _ hj₁ he₁
  · intro ys h₂
    obtain ⟨rs₂, hj₂, he₂⟩ := byGap_runs D₂ xs ys h₂
    exact coverage_of_runs _ _ _ hj₂ he₂
  · intro ys h₃
    obtain ⟨rs₃, hj₃, he₃⟩ := lasting_runs D₃ xs ys h₃
    exact coverage_of_runs _ _ _ hj₃ he₃

/-- Witness for claim C1 at the concrete input `w1In`, with the three
checked operators instantiated at their concrete outputs. -/
theorem claim_C1_coverage_witness :
    textConcat [(⟨0, 260, "ab".toList⟩ : Timing)] = textConcat w1In ∧
    textConcat [(⟨0, 260, "ab".toList⟩ : Timing)] = textConcat w1In ∧
    textConcat w1In = textConcat w1In ∧
    textConcat (sentences w1In) = textConcat w1In ∧
    textConcat (min_word_count 1 w1In) = textConcat w1In ∧
    textConcat (chunks 1 w1In) = textConcat w1In := by
  have h := claim_C1_coverage 100 100 100 1 1 (by decide) (by decide) w1In
  exact ⟨h.1 [⟨0, 260, "ab".toList⟩] (by decide),
    h.2.1 [⟨0, 260, "ab".toList⟩] (by decide),
    h.2.2.1 w1In (by decide),
    h.2.2.2.1, h.2.2.2.2.1, h.2.2.2.2.2⟩

/-- Claim C2: Time envelope — for each of the six grouping operators on a
valid input (success of the checked computation for the three arithmetic
operators), every output event is the `combine` fold of a contiguous run
of input events and starts where the run's first input starts and ends
where the run's last input ends. -/
theorem claim_C2_envelope (D₁ D₂ D₃ N K : Nat) (_hN : 1 ≤ N) (hK : 1 ≤ K)
    (xs ys₁ ys₂ ys₃ : List Timing)
    (h₁ : maxSilence D₁ xs = some ys₁) (h₂ : byGap D₂ xs = some ys₂)
    (h₃ : lasting D₃ xs = some ys₃) :
    EnvelopeOf xs ys₁ ∧ EnvelopeOf xs ys₂ ∧ EnvelopeOf xs ys₃ ∧
    EnvelopeOf xs (sentences xs) ∧ EnvelopeOf xs (min_word_count N xs) ∧
    EnvelopeOf xs (chunks K xs) := by
  obtain ⟨rs₁, hj₁, he₁, -, -⟩ := maxSilence_runs D₁ xs ys₁ h₁
  obtain ⟨rs₂, hj₂, he₂⟩ := byGap_runs D₂ xs ys₂ h₂
  obtain ⟨rs₃, hj₃, he₃⟩ := lasting_runs D₃ xs ys₃ h₃
  obtain ⟨rs₄, hj₄, he₄, -⟩ := sentences_runs xs
  obtain ⟨rs₅, hj₅, he₅, -⟩ := min_word_count_runs N xs
  obtain ⟨k, rfl⟩ : ∃ k, K = k + 1 := ⟨K - 1, by omega⟩
  obtain ⟨rs₆, hj₆, he₆⟩ := chunks_runs k xs.length xs (le_refl _)
  exact ⟨envelopeOf_of_runs _ _ _ hj₁ he₁, envelopeOf_of_runs _ _ _ hj₂ he₂,
    envelopeOf_of_runs _ _ _ hj₃ he₃, envelopeOf_of_runs _ _ _ hj₄ he₄,
    envelopeOf_of_runs _ _ _ hj₅ he₅, envelopeOf_of_runs _ _ _ hj₆ he₆⟩

/-- Witness for claim C2 at the concrete input `w1In`. -/
theorem claim_C2_envelope_witness :
    EnvelopeOf w1In [(⟨0, 260, "ab".toList⟩ : Timing)] ∧
    EnvelopeOf w1In [(⟨0, 260, "ab".toList⟩ : Timing)] ∧
    EnvelopeOf w1In w1In ∧
    EnvelopeOf w1In (sentences w1In) ∧
    EnvelopeOf w1In (min_word_count 1 w1In) ∧
    EnvelopeOf w1In (chunks 1 w1In) :=
  claim_C2_envelope 100 100 100 1 1 (by decide) (by decide) w1In
    [⟨0, 260, "ab".toList⟩] [⟨0, 260, "ab".toList⟩] w1In
    (by decide) (by decide) (by decide)

/-- Claim C3: Normalizer time envelope and clamp — each event emitted by
`join_continuations` from the run with seed `xs[a]` and absorbed tail
`xs[a+1..b]` (all continuations) has `start = xs[a].start`,
`end = min(xs[a].end, start + 500)`, and text equal to `xs[a].text`
followed by the tail texts appended unchanged; the start is never
modified. -/
theorem claim_C3_normalizer (xs ys : List Timing)
    (h : join_continuations xs = some ys) :
    ∃ rs, runsJoin rs = xs ∧
      List.Forall₂ (fun (r : Timing × List Timing) (y : Timing) =>
        y.start = r.1.start ∧ y.end_ = min r.1.end_ (r.1.start + MAX_DURATION) ∧
        y.text = r.1.text ++ textConcat r.2) rs ys ∧
      ∀ r ∈ rs, ∀ u ∈ r.2, u.is_continuation = true :=
  join_continuations_spec xs ys h

/-- Witness for claim C3 at the concrete input `w3In`, whose single
utterance is clamped from 700 ms to 500 ms. -/
theorem claim_C3_normalizer_witness :
    ∃ rs, runsJoin rs = w3In ∧
      List.Forall₂ (fun (r : Timing × List Timing) (y : Timing) =>
        y.start = r.1.start ∧ y.end_ = min r.1.end_ (r.1.start + MAX_DURATION) ∧
        y.text = r.1.text ++ textConcat r.2) rs [⟨0, 500, " Hi!".toList⟩] ∧
      ∀ r ∈ rs, ∀ u ∈ r.2, u.is_continuation = true :=
  claim_C3_normalizer w3In [⟨0, 500, " Hi!".toList⟩] (by decide)

/-- Claim C4 counterexample: on the S1 input the normalizer does not
produce the claimed `[(0, 500, " Helloworld"), (900, 1000, " again.")]`:
`absorb` keeps the seed's end 200, so no clamp fires. -/
theorem claim_C4_counterexample :
    join_continuations s1In ≠
      some [⟨0, 500, " Helloworld".toList⟩, ⟨900, 1000, " again.".toList⟩] := by
  decide

/-- Claim C4 amended: on the S1 input the normalizer outputs
`[(0, 200, " Helloworld"), (900, 1000, " again.")]` — the first two events
fuse by `absorb` (which keeps the seed's end 200, duration 200 ≤ 500, so
the clamp does not fire), and the third, beginning with whitespace, is not
a continuation. -/
theorem claim_C4_s1_normalized :
    join_continuations s1In =
      some [⟨0, 200, " Helloworld".toList⟩, ⟨900, 1000, " again.".toList⟩] := by
  decide

/-- Claim C5 counterexample: on the S5 input `max_silence(300)` does not
emit two events with boundaries (0,300) and (500,1000): the second run's
first gap is exactly 300, which is not < 300, so the run breaks. -/
theorem claim_C5_counterexample :
    (maxSilence 300 s5In).map (List.map fun t => (t.start, t.end_)) ≠
      some [(0, 300), (500, 1000)] := by
  decide

/-- Claim C5 amended: `max_silence(D)` continues the run while
`total_silence + (next.start − acc.end) < D` with `total_silence` the sum
of the gaps already merged (reset per run) — equivalently each run's
total silence stays below `D` and each boundary is forced — and on the S5
input it emits three events (0,300), (500,600), (900,1000), because the
second run's gap of exactly 300 is not `< 300`. -/
theorem claim_C5_max_silence :
    maxSilence 300 s5In = some [⟨0, 300, []⟩, ⟨500, 600, []⟩, ⟨900, 1000, []⟩] ∧
    ∀ (D : Nat) (xs ys : List Timing), maxSilence D xs = some ys →
      ∃ rs, runsJoin rs = xs ∧ ys = runsFold rs ∧ SilenceRuns D rs ∧
        ∀ r ∈ rs, runSorted r :=
  ⟨rfl, fun D xs ys h => maxSilence_runs D xs ys h⟩

/-- Witness for claim C5: the characterization applied to the S5 input. -/
theorem claim_C5_max_silence_witness :
    ∃ rs, runsJoin rs = s5In ∧
      [(⟨0, 300, []⟩ : Timing), ⟨500, 600, []⟩, ⟨900, 1000, []⟩] = runsFold rs ∧
      SilenceRuns 300 rs ∧ ∀ r ∈ rs, runSorted r :=
  claim_C5_max_silence.2 300 s5In _ claim_C5_max_silence.1

/-- Claim C6 counterexample: the code tests each incoming event's own
text, not the accumulated text; on `c6In` the code emits one event while
the accumulated-text rule of the claim emits two. -/
theorem claim_C6_counterexample :
    sentences c6In = [⟨0, 300, "abc.x.".toList⟩] ∧
    sentencesAcc c6In = [⟨0, 200, "abc.".toList⟩, ⟨200, 300, "x.".toList⟩] ∧
    sentences c6In ≠ sentencesAcc c6In := by
  exact ⟨by decide, by decide, by decide⟩

/-- Claim C6 amended: `sentences` continues the current run while each
incoming event's OWN text does not end (at a character index > 0 within
that event's text) in one of `.`, `!`, `?`; a run is closed exactly by the
first event whose own text does (the final run may instead be closed by
end of input). -/
theorem claim_C6_sentences (xs : List Timing) :
    ∃ rs, runsJoin rs = xs ∧ sentences xs = runsFold rs ∧
      StopRuns (fun t => is_sentence t.text) rs :=
  sentences_runs xs

/-- Claim C7 counterexample: the code tests each incoming event's own
word count, not the accumulated text's; on `c7In` with `N = 2` the code
emits one event while the accumulated-text rule of the claim emits two. -/
theorem claim_C7_counterexample :
    min_word_count 2 c7In = [⟨0, 300, " a b c".toList⟩] ∧
    minWordCountAcc 2 c7In = [⟨0, 200, " a b".toList⟩, ⟨200, 300, " c".toList⟩] ∧
    min_word_count 2 c7In ≠ minWordCountAcc 2 c7In := by
  exact ⟨by decide, by decide, by decide⟩

/-- Claim C7 amended: `min_word_count(N)` (N ≥ 1) continues the current
run while each incoming event's OWN text contains fewer than `N`
whitespace-separated tokens; a run is closed exactly by the first event
whose own text has at least `N` tokens (the final run may instead be
closed by end of input). -/
theorem claim_C7_min_word_count (N : Nat) (_hN : 1 ≤ N) (xs : List Timing) :
    ∃ rs, runsJoin rs = xs ∧ min_word_count N xs = runsFold rs ∧
      StopRuns (fun t => ! decide (wordCount t.text < N)) rs :=
  min_word_count_runs N xs

/-- Witness for claim C7 at the concrete input `c7In` with `N = 2`. -/
theorem claim_C7_min_word_count_witness :
    1 ≤ 2 ∧
    ∃ rs, runsJoin rs = c7In ∧ min_word_count 2 c7In = runsFold rs ∧
      StopRuns (fun t => ! decide (wordCount t.text < 2)) rs :=
  ⟨by decide, claim_C7_min_word_count 2 (by decide) c7In⟩

/-- Claim C8 counterexample: on the overlapping input `c8In`
(`next.start = 50 < acc.end = 200`) both gap operators hit the `u32`
underflow (modelled `none`) instead of saturating the difference to 0. -/
theorem claim_C8_counterexample :
    maxSilence 300 c8In = none ∧ byGap 200 c8In = none :=
  ⟨rfl, rfl⟩

/-- Claim C8 amended: the gap difference `next.start − acc.end` is an
unchecked `u32` subtraction, so on overlapping events it underflows (a
debug-build panic, modelled `none`) rather than being saturated to 0.  On
inputs whose adjacent events satisfy `next.start ≥ prev.end`, `by_gap` is
total; `max_silence` additionally needs its `u32` addition
`total_silence + next.start` not to overflow — it still panics on the
no-overlap `u32` input `c8AddIn` — and is total when every event also
satisfies `start ≤ end` with timestamps below `2 ^ 31`. -/
theorem claim_C8_gap_arithmetic (D₁ D₂ : Nat) (xs : List Timing)
    (h : NoOverlap xs) :
    (byGap D₂ xs).isSome ∧
    ((∀ t ∈ xs, t.start ≤ t.end_ ∧ t.end_ < 2 ^ 31) → (maxSilence D₁ xs).isSome) ∧
    NoOverlap c8AddIn ∧ maxSilence 300 c8AddIn = none := by
  refine ⟨?_, ?_, ?_, rfl⟩
  · cases xs with
    | nil => exact rfl
    | cons t ts => exact byGapGo_isSome D₂ ts t h
  · intro hwf
    cases xs with
    | nil => exact rfl
    | cons t ts =>
      refine maxSilenceGo_isSome D₁ ts t 0 h ?_ (Nat.zero_le _) ?_
      · intro u hu
        exact hwf u (List.mem_cons_of_mem t hu)
      · exact (hwf t (List.mem_cons_self t ts)).2
  · show List.Chain' (fun a b => a.end_ ≤ b.start) c8AddIn
    rw [show c8AddIn = [⟨0, 4294967286, []⟩, ⟨4294967287, 4294967287, []⟩,
        ⟨4294967295, 4294967295, []⟩] from rfl, List.chain'_cons, List.chain'_pair]
    exact ⟨by decide, by decide⟩

/-- Witness for claim C8 on a sorted two-event input of well-formed small
events. -/
theorem claim_C8_gap_arithmetic_witness :
    NoOverlap [(⟨0, 100, []⟩ : Timing), ⟨150, 250, []⟩] ∧
    ((byGap 200 [(⟨0, 100, []⟩ : Timing), ⟨150, 250, []⟩]).isSome ∧
     (maxSilence 300 [(⟨0, 100, []⟩ : Timing), ⟨150, 250, []⟩]).isSome) := by
  have hno : NoOverlap [(⟨0, 100, []⟩ : Timing), ⟨150, 250, []⟩] := by
    show List.Chain' (fun a b => a.end_ ≤ b.start)
      [(⟨0, 100, []⟩ : Timing), ⟨150, 250, []⟩]
    exact List.chain'_pair.mpr (by decide)
  have h := claim_C8_gap_arithmetic 300 200 _ hno
  exact ⟨hno, h.1, h.2.1 (by decide)⟩

/-- Claim C9 counterexample: an event with empty text IS a continuation
(`is_continuation` returns `true` on it), and `join_continuations` absorbs
it into the previous utterance instead of starting a new one. -/
theorem claim_C9_counterexample :
    Timing.is_continuation ⟨0, 100, []⟩ = true ∧
    join_continuations c9In = some [⟨0, 100, " a".toList⟩] :=
  ⟨rfl, by decide⟩

/-- Claim C9 amended: `is_continuation(e)` holds iff `e.text` is empty or
its first character is not whitespace; in particular an empty-text event
is a continuation and is absorbed rather than starting a new utterance. -/
theorem claim_C9_is_continuation (t : Timing) :
    t.is_continuation = true ↔
      t.text = [] ∨ ∃ c cs, t.text = c :: cs ∧ rustIsWhitespace c = false := by
  cases htext : t.text with
  | nil => simp [Timing.is_continuation, htext]
  | cons c cs => simp [Timing.is_continuation, htext]

/-- Claim C10: for `K ≥ 1`, `chunks(K)` emits exactly `⌈n/K⌉` events and
the `i`-th output (0-based) is the `combine` fold of exactly the inputs at
indices `i·K` through `min((i+1)·K, n) − 1` (so every run has `K` inputs
except possibly the last). -/
theorem claim_C10_chunks (K : Nat) (hK : 1 ≤ K) (xs : List Timing) :
    (chunks K xs).length = (xs.length + K - 1) / K ∧
    ∀ i : Nat, (chunks K xs)[i]? = combineAll ((xs.drop (i * K)).take K) := by
  obtain ⟨k, rfl⟩ : ∃ k, K = k + 1 := ⟨K - 1, by omega⟩
  exact ⟨chunks_length_aux k xs.length xs (le_refl _),
    fun i => chunks_get_aux k xs.length xs (le_refl _) i⟩

/-- Witness for claim C10: scenario S3, seven inputs in chunks of three. -/
theorem claim_C10_chunks_witness :
    1 ≤ 3 ∧
    (chunks 3 w10In).length = (w10In.length + 3 - 1) / 3 ∧
    (chunks 3 w10In)[1]? = combineAll ((w10In.drop (1 * 3)).take 3) :=
  ⟨by decide, (claim_C10_chunks 3 (by decide) w10In).1,
    (claim_C10_chunks 3 (by decide) w10In).2 1⟩
